import Mathlib

/-!
Verification of the memmem substring-search core of the `thomcc/memchr`
repository, by shallow embedding of the Rust sources into Lean.

Byte sequences are modelled as `List Nat` (a byte is a `Nat`; all machine
arithmetic that can wrap is made explicit with `% 2^32` etc.).  Functions are
translated from the files under `src/`:

* `src/memmem/mod.rs`         — `memmem`, `memrmem`, the iterators
  `Memmem`/`Memrmem`, and the naive reference searchers from `testprops`;
* `src/memmem/rabinkarp.rs`   — `Hash`, `NeedleHash`, `find_with`;
* `src/memmem/prefilter/mod.rs` — `PrefilterState`, `NeedleInfo`, `Freqy`;
* `src/memmem/prefilter/fallback.rs` — the scalar prefilter `find`;
* `src/memmem/prefilter/x86/sse.rs` and `x86/avx.rs` — the vector prefilters
  (128 and 256 bit lanes, expressed by their lane-wise semantics: an unaligned
  load followed by `cmpeq`/`and`/`movemask`/`trailing_zeros` computes the
  least in-chunk offset at which both rare bytes match);
* `src/memmem/genericsimd.rs` — `Forward::new`.

Parts of the repository referenced by this code are absent from the snapshot
(`twoway.rs`, `byte_frequencies.rs`, `memmem/util.rs`, `rabinkarp::rfind`,
and the scalar `memchr`/`memrchr` kernels).  Definitions for those are
modelled from the specification and are marked as such in their doc comments.
-/

/-- Wrap-around modulus of a `u32`. -/
def U32M : Nat := 2 ^ 32

/-- Largest value of a `u32` (`u32::MAX`). -/
def u32Max : Nat := 2 ^ 32 - 1

/-- From `src/memmem/prefilter/util.rs` (`is_prefix`, via `memcmp`): `needle`
is a prefix of `haystack` when it is no longer than `haystack` and the first
`needle.len()` bytes agree.  Note `List.take` returns a shorter list when the
needle is longer, so the equality test alone is equivalent. -/
def isPrefB (needle haystack : List Nat) : Bool :=
  haystack.take needle.length == needle

/-- Occurrence of `n` in `h` at position `p`: the needle fits and the window
starting at `p` equals the needle. -/
def occAt (h n : List Nat) (p : Nat) : Prop :=
  p + n.length ≤ h.length ∧ (h.drop p).take n.length = n

instance (h n : List Nat) (p : Nat) : Decidable (occAt h n p) := by
  unfold occAt; infer_instance

/-- From `src/memmem/mod.rs` (`testprops::naive_find`): reference forward
search — `Some 0` for an empty needle, `None` when the needle is longer than
the haystack, otherwise the least window start whose window equals the
needle. -/
def naive_find (haystack needle : List Nat) : Option Nat :=
  if needle.isEmpty then some 0
  else if haystack.length < needle.length then none
  else (List.range (haystack.length - needle.length + 1)).find?
    (fun i => (haystack.drop i).take needle.length == needle)

/-- From `src/memmem/mod.rs` (`testprops::naive_rfind`): reference reverse
search — `Some |H|` for an empty needle, otherwise the greatest window start
whose window equals the needle (the loop runs over the window starts in
reverse). -/
def naive_rfind (haystack needle : List Nat) : Option Nat :=
  if needle.isEmpty then some haystack.length
  else if haystack.length < needle.length then none
  else (List.range (haystack.length - needle.length + 1)).reverse.find?
    (fun i => (haystack.drop i).take needle.length == needle)

/-- Modelled from the spec: the scalar `memchr` kernels are absent from the
snapshot (`src/memchr/` only holds the x86 dispatch shim); §1 of the spec
treats `memchr` as an external collaborator specified by its interface —
the first index at which the byte occurs. -/
def memchrList (b : Nat) : List Nat → Option Nat
  | [] => none
  | a :: rest => if a = b then some 0 else (memchrList b rest).map (· + 1)

/-! ### Characterization of `List.find?` over index ranges -/

theorem find?_range'_eq_some {p : Nat → Bool} {s n i : Nat}
    (h : (List.range' s n).find? p = some i) :
    s ≤ i ∧ i < s + n ∧ p i = true ∧ ∀ j, s ≤ j → j < i → p j = false := by
  induction n generalizing s with
  | zero => simp [List.range'] at h
  | succ n ih =>
    rw [List.range'_succ] at h
    by_cases hp : p s
    · rw [List.find?_cons_of_pos _ hp] at h
      obtain rfl : s = i := by simpa using h
      exact ⟨le_rfl, by omega, hp, fun j h1 h2 => absurd (lt_of_le_of_lt h1 h2) (lt_irrefl _)⟩
    · rw [List.find?_cons_of_neg _ hp] at h
      obtain ⟨h1, h2, h3, h4⟩ := ih h
      refine ⟨by omega, by omega, h3, fun j hj1 hj2 => ?_⟩
      rcases Nat.eq_or_lt_of_le hj1 with rfl | hj1
      · exact Bool.eq_false_iff.mpr hp
      · exact h4 j hj1 hj2

theorem find?_range'_eq_none {p : Nat → Bool} {s n : Nat}
    (h : (List.range' s n).find? p = none) :
    ∀ j, s ≤ j → j < s + n → p j = false := by
  intro j h1 h2
  rw [List.find?_eq_none] at h
  have : j ∈ List.range' s n := by
    rw [List.mem_range'_1]
    exact ⟨h1, by omega⟩
  simpa using h j this

theorem find?_range'_of_first {p : Nat → Bool} {s n i : Nat}
    (h1 : s ≤ i) (h2 : i < s + n) (h3 : p i = true)
    (h4 : ∀ j, s ≤ j → j < i → p j = false) :
    (List.range' s n).find? p = some i := by
  induction n generalizing s with
  | zero => omega
  | succ n ih =>
    rw [List.range'_succ]
    rcases Nat.eq_or_lt_of_le h1 with rfl | hlt
    · rw [List.find?_cons_of_pos _ h3]
    · rw [List.find?_cons_of_neg _ (by simp [h4 s le_rfl hlt])]
      exact ih hlt (by omega) (fun j hj1 hj2 => h4 j (by omega) hj2)

theorem find?_range'_rev_eq_some {p : Nat → Bool} {s n i : Nat}
    (h : (List.range' s n).reverse.find? p = some i) :
    s ≤ i ∧ i < s + n ∧ p i = true ∧ ∀ j, i < j → j < s + n → p j = false := by
  induction n generalizing s with
  | zero => simp [List.range'] at h
  | succ n ih =>
    rw [List.range'_1_concat, List.reverse_append] at h
    simp only [List.reverse_singleton, List.singleton_append] at h
    by_cases hp : p (s + n)
    · rw [List.find?_cons_of_pos _ hp] at h
      obtain rfl : s + n = i := by simpa using h
      exact ⟨by omega, by omega, hp, fun j h1 h2 => by omega⟩
    · rw [List.find?_cons_of_neg _ hp] at h
      obtain ⟨h1, h2, h3, h4⟩ := ih h
      refine ⟨h1, by omega, h3, fun j hj1 hj2 => ?_⟩
      by_cases hj : j = s + n
      · subst hj; exact Bool.eq_false_iff.mpr hp
      · exact h4 j hj1 (by omega)

theorem find?_range'_rev_of_last {p : Nat → Bool} {s n i : Nat}
    (h1 : s ≤ i) (h2 : i < s + n) (h3 : p i = true)
    (h4 : ∀ j, i < j → j < s + n → p j = false) :
    (List.range' s n).reverse.find? p = some i := by
  induction n generalizing i with
  | zero => omega
  | succ n ih =>
    rw [List.range'_1_concat, List.reverse_append]
    simp only [List.reverse_singleton, List.singleton_append]
    by_cases hi : i = s + n
    · subst hi; rw [List.find?_cons_of_pos _ h3]
    · rw [List.find?_cons_of_neg _ (by simp [h4 (s + n) (by omega) (by omega)])]
      exact ih h1 (by omega) h3 (fun j hj1 hj2 => h4 j hj1 (by omega))

theorem find?_range'_rev_eq_none {p : Nat → Bool} {s n : Nat}
    (h : (List.range' s n).reverse.find? p = none) :
    ∀ j, s ≤ j → j < s + n → p j = false := by
  intro j h1 h2
  rw [List.find?_eq_none] at h
  have : j ∈ (List.range' s n).reverse := by
    rw [List.mem_reverse, List.mem_range'_1]
    exact ⟨h1, by omega⟩
  simpa using h j this

/-! ### Basic facts about `memchrList` -/

theorem memchrList_eq_some {b : Nat} :
    ∀ {l : List Nat} {i : Nat}, memchrList b l = some i →
      i < l.length ∧ l.getD i 0 = b ∧ ∀ j, j < i → l.getD j 0 ≠ b := by
  intro l
  induction l with
  | nil => intro i h; simp [memchrList] at h
  | cons a rest ih =>
    intro i h
    by_cases ha : a = b
    · simp [memchrList, ha] at h
      subst h
      exact ⟨by simp, by simp [ha], fun j hj => by omega⟩
    · simp [memchrList, ha] at h
      obtain ⟨k, hk, rfl⟩ := h
      obtain ⟨h1, h2, h3⟩ := ih hk
      refine ⟨by simpa using h1, by simpa using h2, fun j hj => ?_⟩
      cases j with
      | zero => simpa using ha
      | succ j => simpa using h3 j (by omega)

theorem memchrList_ne_none {b : Nat} {l : List Nat} {i : Nat}
    (hi : i < l.length) (hb : l.getD i 0 = b) : memchrList b l ≠ none := by
  induction l generalizing i with
  | nil => simp at hi
  | cons a rest ih =>
    by_cases ha : a = b
    · simp [memchrList, ha]
    · cases i with
      | zero => simp at hb; exact absurd hb ha
      | succ i =>
        simp [memchrList, ha]
        exact ih (by simpa using hi) (by simpa using hb)

theorem memchrList_le {b : Nat} {l : List Nat} {f i : Nat}
    (hf : memchrList b l = some f) (hb : l.getD i 0 = b) :
    f ≤ i := by
  obtain ⟨h1, h2, h3⟩ := memchrList_eq_some hf
  by_contra hc
  exact h3 i (by omega) hb

/-! ### Rabin-Karp (`src/memmem/rabinkarp.rs`)

The `Hash` type is a `u32`; `add` is `wrapping_shl(1)` followed by
`wrapping_add`, `del` subtracts `byte * hash_2pow` wrapping, and `hash_2pow`
is built by one `wrapping_shl(1)` per needle byte after the first. -/

/-- One `Hash::add` step (`(h << 1) + b`, wrapping in a `u32`). -/
def hashAdd (h b : Nat) : Nat := (2 * h + b) % U32M

/-- `Hash::from_bytes`: fold `add` over the bytes starting from `Hash(0)`. -/
def hashBytes (l : List Nat) : Nat := l.foldl hashAdd 0

/-- A needle hash (`NeedleHash`): the hash of the needle together with the
factor `2^(len-1) mod 2^32` used to remove a byte from the rolling hash. -/
structure NeedleHash where
  hash : Nat
  hash2pow : Nat
deriving Repr, DecidableEq

/-- `NeedleHash::new`: hash all needle bytes; `hash_2pow` starts at 1 and is
shifted left (wrapping) once per byte after the first. -/
def NeedleHash.new (n : List Nat) : NeedleHash :=
  { hash := hashBytes n
    hash2pow := if n.isEmpty then 1 else 2 ^ (n.length - 1) % U32M }

/-- `Hash::roll`: `del` the outgoing byte then `add` the incoming one; `del`
is a wrapping subtraction of `old * hash_2pow` (itself a wrapping `u32`
multiplication). -/
def hashRoll (nh : NeedleHash) (h old new : Nat) : Nat :=
  hashAdd ((h % U32M + U32M - old * nh.hash2pow % U32M) % U32M) new

/-- The scanning loop of `rabinkarp::find_with`: at each position, if the
window hash equals the needle hash and the needle is a prefix of the rest of
the haystack, return the current position; stop with `None` once the needle
no longer fits strictly inside the rest; otherwise roll the hash past the
head byte and advance by one. -/
def rkLoop (nh : NeedleHash) (n : List Nat) : List Nat → Nat → Nat → Option Nat
  | [], hash, pos => if nh.hash = hash ∧ isPrefB n [] then some pos else none
  | a :: rest', hash, pos =>
    if nh.hash = hash ∧ isPrefB n (a :: rest') then some pos
    else if rest'.length < n.length then none
    else rkLoop nh n rest' (hashRoll nh hash a ((a :: rest').getD n.length 0)) (pos + 1)

/-- `rabinkarp::find_with`: `None` when the haystack is shorter than the
needle, otherwise run the rolling-hash scan seeded with the hash of the first
window. -/
def rkFindWith (nh : NeedleHash) (h n : List Nat) : Option Nat :=
  if h.length < n.length then none
  else rkLoop nh n h (hashBytes (h.take n.length)) 0

/-- `rabinkarp::find`: build the needle hash, then `find_with`. -/
def rkFind (h n : List Nat) : Option Nat := rkFindWith (NeedleHash.new n) h n

/-! ### Prefilter state (`src/memmem/prefilter/mod.rs`) -/

/-- `PrefilterState`: a pair of saturating `u32` counters.  `skips` is one
greater than the number of skips, with 0 the inert sentinel. -/
structure PrefilterState where
  skips : Nat
  skipped : Nat
deriving Repr, DecidableEq

/-- `PrefilterState::MIN_SKIPS`. -/
def MIN_SKIPS : Nat := 50

/-- `PrefilterState::MIN_SKIP_BYTES`. -/
def MIN_SKIP_BYTES : Nat := 8

/-- `PrefilterState::new`: the fresh state. -/
def psFresh : PrefilterState := { skips := 1, skipped := 0 }

/-- `PrefilterState::inert`: the always-inert state. -/
def psInert : PrefilterState := { skips := 0, skipped := 0 }

/-- `PrefilterState::update`: `skips` is `saturating_add(1)`; the `usize`
argument is clamped to `u32::MAX` first, then `skipped` is saturating-added. -/
def psUpdate (ps : PrefilterState) (amt : Nat) : PrefilterState :=
  { skips := min (ps.skips + 1) u32Max
    skipped :=
      if u32Max < amt then u32Max else min (ps.skipped + amt) u32Max }

/-- `PrefilterState::skips()`: `saturating_sub(1)`, which on `Nat` is plain
subtraction. -/
def psSkips (ps : PrefilterState) : Nat := ps.skips - 1

/-- `PrefilterState::is_effective`: inert states answer `false`; before
`MIN_SKIPS` skips the answer is `true`; afterwards the skipped-bytes average
is tested (the `u32` product `MIN_SKIP_BYTES * skips()` wraps, made explicit
here), and on failure the state is made inert.  Returns the answer together
with the possibly mutated state. -/
def isEffective (ps : PrefilterState) : Bool × PrefilterState :=
  if ps.skips = 0 then (false, ps)
  else if psSkips ps < MIN_SKIPS then (true, ps)
  else if MIN_SKIP_BYTES * psSkips ps % U32M ≤ ps.skipped then (true, ps)
  else (false, { ps with skips := 0 })

/-- Fold a list of `update` amounts over a state (a sequence of
`PrefilterState::update` calls). -/
def applyUpdates (ps : PrefilterState) (l : List Nat) : PrefilterState :=
  l.foldl psUpdate ps

/-- The state transformer of one `is_effective` call. -/
def effStep (ps : PrefilterState) : PrefilterState := (isEffective ps).2

/-! ### Correctness of the Rabin-Karp embedding -/

/-- The rolling polynomial evaluated without wrapping. -/
def valB (l : List Nat) : Nat := l.foldl (fun h b => 2 * h + b) 0

theorem valB_foldl (l : List Nat) :
    ∀ a : Nat, l.foldl (fun h b => 2 * h + b) a = a * 2 ^ l.length + valB l := by
  induction l with
  | nil => intro a; simp [valB]
  | cons b l ih =>
    intro a
    have hb := ih (2 * 0 + b)
    simp only [List.foldl_cons, List.length_cons, ih (2 * a + b), valB, hb]
    ring

theorem valB_cons (b : Nat) (l : List Nat) :
    valB (b :: l) = b * 2 ^ l.length + valB l := by
  have := valB_foldl l (2 * 0 + b)
  simpa [valB] using this

theorem valB_concat (l : List Nat) (x : Nat) :
    valB (l ++ [x]) = 2 * valB l + x := by
  simp [valB, List.foldl_append]

theorem wrap_sub_mod (x y : Nat) (h : y ≤ x) :
    (x % U32M + U32M - y % U32M) % U32M = (x - y) % U32M := by
  unfold U32M; omega

theorem hashAdd_mod (a b : Nat) : hashAdd (a % U32M) b = hashAdd a b := by
  unfold hashAdd U32M; omega

theorem mul_mod_r32 (a x : Nat) : a * (x % U32M) % U32M = a * x % U32M := by
  rw [Nat.mul_mod, Nat.mod_mod_of_dvd _ dvd_rfl, ← Nat.mul_mod]

theorem hashBytes_eq_valB : ∀ l : List Nat, hashBytes l = valB l % U32M := by
  have key : ∀ (l : List Nat) (a : Nat),
      l.foldl hashAdd (a % U32M) = (l.foldl (fun h b => 2 * h + b) a) % U32M := by
    intro l
    induction l with
    | nil => intro a; simp
    | cons b l ih =>
      intro a
      have h1 : hashAdd (a % U32M) b = (2 * a + b) % U32M := by
        unfold hashAdd U32M; omega
      simp only [List.foldl_cons, h1, ih (2 * a + b)]
  intro l
  have := key l 0
  simpa [hashBytes, valB] using this

theorem hashBytes_lt (l : List Nat) : hashBytes l < U32M := by
  rw [hashBytes_eq_valB]
  exact Nat.mod_lt _ (by unfold U32M; positivity)

/-- Rolling the window hash past the head byte yields the hash of the window
shifted one byte to the right. -/
theorem hashRoll_window (n : List Nat) (hn : n ≠ []) (a y : Nat) (t : List Nat)
    (ht : t.length = n.length - 1) :
    hashRoll (NeedleHash.new n) (hashBytes (a :: t)) a y = hashBytes (t ++ [y]) := by
  have h2p : (NeedleHash.new n).hash2pow = 2 ^ (n.length - 1) % U32M := by
    simp [NeedleHash.new, List.isEmpty_iff, hn]
  unfold hashRoll
  rw [h2p, Nat.mod_eq_of_lt (hashBytes_lt _), mul_mod_r32,
    hashBytes_eq_valB (a :: t), valB_cons, ht,
    wrap_sub_mod _ _ (Nat.le_add_right _ _), Nat.add_sub_cancel_left,
    hashAdd_mod]
  rw [hashBytes_eq_valB (t ++ [y]), valB_concat]
  unfold hashAdd
  rfl

theorem isPrefB_true_iff (n l : List Nat) :
    isPrefB n l = true ↔ l.take n.length = n := by
  simp [isPrefB]

theorem isPrefB_false_of_short {n l : List Nat} (h : l.length < n.length) :
    isPrefB n l = false := by
  rw [Bool.eq_false_iff]
  intro hc
  rw [isPrefB_true_iff] at hc
  have : (l.take n.length).length = min n.length l.length := by simp
  rw [hc] at this
  omega

theorem isPrefB_nil (l : List Nat) : isPrefB [] l = true := by
  simp [isPrefB]

/-- First index at which the needle is a prefix of the corresponding suffix.
Auxiliary specification device for the scanning loops. -/
def firstPrefIdx (n : List Nat) : List Nat → Option Nat
  | [] => if isPrefB n [] then some 0 else none
  | a :: rest =>
    if isPrefB n (a :: rest) then some 0
    else (firstPrefIdx n rest).map (· + 1)

theorem firstPrefIdx_some {n : List Nat} :
    ∀ {l : List Nat} {j : Nat}, firstPrefIdx n l = some j →
      isPrefB n (l.drop j) = true ∧ ∀ i, i < j → isPrefB n (l.drop i) = false := by
  intro l
  induction l with
  | nil =>
    intro j h
    unfold firstPrefIdx at h
    by_cases hp : isPrefB n []
    · rw [if_pos hp] at h
      obtain rfl : (0 : Nat) = j := by simpa using h
      exact ⟨by simpa using hp, fun i hi => by omega⟩
    · rw [if_neg hp] at h
      simp at h
  | cons a rest ih =>
    intro j h
    unfold firstPrefIdx at h
    by_cases hp : isPrefB n (a :: rest)
    · rw [if_pos hp] at h
      obtain rfl : (0 : Nat) = j := by simpa using h
      exact ⟨by simpa using hp, fun i hi => by omega⟩
    · rw [if_neg hp] at h
      simp only [Option.map_eq_some'] at h
      obtain ⟨k, hk, rfl⟩ := h
      obtain ⟨h1, h2⟩ := ih hk
      refine ⟨by simpa using h1, fun i hi => ?_⟩
      cases i with
      | zero => simpa using Bool.eq_false_iff.mpr hp
      | succ i => simpa using h2 i (by omega)

theorem firstPrefIdx_none {n : List Nat} :
    ∀ {l : List Nat}, firstPrefIdx n l = none →
      ∀ j, isPrefB n (l.drop j) = false := by
  intro l
  induction l with
  | nil =>
    intro h j
    unfold firstPrefIdx at h
    by_cases hp : isPrefB n []
    · rw [if_pos hp] at h; simp at h
    · simpa using Bool.eq_false_iff.mpr hp
  | cons a rest ih =>
    intro h j
    unfold firstPrefIdx at h
    by_cases hp : isPrefB n (a :: rest)
    · rw [if_pos hp] at h; simp at h
    · rw [if_neg hp] at h
      simp only [Option.map_eq_none'] at h
      cases j with
      | zero => simpa using Bool.eq_false_iff.mpr hp
      | succ j => simpa using ih h j

theorem firstPrefIdx_of_short {n : List Nat} :
    ∀ {l : List Nat}, l.length < n.length → firstPrefIdx n l = none := by
  intro l
  induction l with
  | nil =>
    intro h
    unfold firstPrefIdx
    rw [if_neg (by simp [isPrefB_false_of_short h])]
  | cons a rest ih =>
    intro h
    unfold firstPrefIdx
    rw [if_neg (by simp [isPrefB_false_of_short h])]
    simp [ih (by simp at h ⊢; omega)]

/-- The Rabin-Karp scanning loop finds the first position at which the needle
is a prefix of the corresponding suffix: a genuine match always makes the
window hash collide with the needle hash, so the exact prefix comparison is
evaluated at every matching position. -/
theorem rkLoop_eq_firstPrefIdx (n : List Nat) :
    ∀ (rest : List Nat), n.length ≤ rest.length → ∀ pos : Nat,
      rkLoop (NeedleHash.new n) n rest (hashBytes (rest.take n.length)) pos
        = (firstPrefIdx n rest).map (· + pos) := by
  intro rest
  induction rest with
  | nil =>
    intro hlen pos
    have hn : n = [] := by
      cases n with
      | nil => rfl
      | cons b m => simp at hlen
    subst hn
    unfold rkLoop firstPrefIdx
    rw [if_pos ⟨rfl, isPrefB_nil []⟩, if_pos (isPrefB_nil [])]
    simp
  | cons a rest' ih =>
    intro hlen pos
    unfold rkLoop
    by_cases hp : isPrefB n (a :: rest')
    · have htake : (a :: rest').take n.length = n := (isPrefB_true_iff _ _).mp hp
      rw [if_pos ⟨by rw [htake]; rfl, hp⟩]
      unfold firstPrefIdx
      rw [if_pos hp]
      simp
    · rw [if_neg (by intro hc; exact hp hc.2)]
      have hne : n ≠ [] := by
        intro hc; subst hc; exact absurd (isPrefB_nil _) (by simpa using hp)
      by_cases hshort : rest'.length < n.length
      · rw [if_pos hshort]
        unfold firstPrefIdx
        rw [if_neg hp, firstPrefIdx_of_short hshort]
        rfl
      · rw [if_neg hshort]
        push_neg at hshort
        have hk1 : 1 ≤ n.length := by
          cases n with
          | nil => exact absurd rfl hne
          | cons b m => simp
        have htk : (a :: rest').take n.length
            = a :: rest'.take (n.length - 1) := by
          cases hkk : n.length with
          | zero => omega
          | succ k => simp [List.take_succ_cons]
        have hgetD : (a :: rest').getD n.length 0 = rest'.getD (n.length - 1) 0 := by
          cases hkk : n.length with
          | zero => omega
          | succ k => simp [List.getD_cons_succ]
        have htk2 : rest'.take n.length
            = rest'.take (n.length - 1) ++ [rest'.getD (n.length - 1) 0] := by
          have h1 : n.length - 1 < rest'.length := by omega
          have h2 : n.length - 1 + 1 = n.length := by omega
          have h3 := List.take_succ (l := rest') (n := n.length - 1)
          rw [h2, List.getElem?_eq_getElem h1] at h3
          rw [h3]
          congr 1
          simp [List.getD_eq_getElem?_getD, List.getElem?_eq_getElem h1]
        have hroll : hashRoll (NeedleHash.new n)
              (hashBytes ((a :: rest').take n.length)) a
              ((a :: rest').getD n.length 0)
            = hashBytes (rest'.take n.length) := by
          rw [htk, hgetD, htk2]
          exact hashRoll_window n hne a _ _ (by simp; omega)
        rw [hroll, ih hshort (pos + 1)]
        have hfp : firstPrefIdx n (a :: rest')
            = (firstPrefIdx n rest').map (· + 1) := by
          simp only [firstPrefIdx]
          rw [if_neg hp]
        rw [hfp]
        cases firstPrefIdx n rest' with
        | none => rfl
        | some j => simp; omega

theorem firstPrefIdx_empty (l : List Nat) : firstPrefIdx [] l = some 0 := by
  cases l with
  | nil => simp [firstPrefIdx, isPrefB_nil]
  | cons a rest => simp [firstPrefIdx, isPrefB_nil]

/-- The range-scan form of the first-prefix index, for bridging to
`naive_find`. -/
theorem firstPrefIdx_eq_range_find (h n : List Nat) (hne : n ≠ [])
    (hlen : n.length ≤ h.length) :
    (List.range (h.length - n.length + 1)).find?
        (fun i => (h.drop i).take n.length == n)
      = firstPrefIdx n h := by
  cases hfpi : firstPrefIdx n h with
  | some j =>
    obtain ⟨h1, h2⟩ := firstPrefIdx_some hfpi
    have hj : j + n.length ≤ h.length := by
      rw [isPrefB_true_iff] at h1
      have hlen2 := congrArg List.length h1
      rw [List.length_take, List.length_drop] at hlen2
      have hpos : 0 < n.length := List.length_pos.mpr hne
      omega
    rw [List.range_eq_range']
    exact find?_range'_of_first (Nat.zero_le _) (by omega) h1
      (fun i _ hij => h2 i hij)
  | none =>
    have hall := firstPrefIdx_none hfpi
    rw [List.find?_eq_none]
    intro x _
    have hx := hall x
    rw [isPrefB] at hx
    simp at hx ⊢
    exact hx

/-- Claim-level correctness of Rabin-Karp forward search: it agrees with the
naive reference searcher on all inputs. -/
theorem rkFind_eq_naive (h n : List Nat) : rkFind h n = naive_find h n := by
  unfold rkFind rkFindWith naive_find
  by_cases hshort : h.length < n.length
  · rw [if_pos hshort, if_neg (by
      intro hc
      rw [List.isEmpty_iff] at hc
      subst hc
      simp at hshort), if_pos hshort]
  · rw [if_neg hshort]
    push_neg at hshort
    rw [rkLoop_eq_firstPrefIdx n h hshort 0]
    by_cases hne : n = []
    · subst hne
      rw [if_pos (by simp)]
      rw [firstPrefIdx_empty]
      simp
    · rw [if_neg (by simpa [List.isEmpty_iff] using hne),
        if_neg (by omega), firstPrefIdx_eq_range_find h n hne hshort]
      cases firstPrefIdx n h with
      | none => rfl
      | some j => simp

/-! ### The Two-Way searcher interface and the public dispatchers -/

theorem isPrefB_le {n l : List Nat} (h : isPrefB n l = true) :
    n.length ≤ l.length := by
  rw [isPrefB_true_iff] at h
  have := congrArg List.length h
  rw [List.length_take] at this
  omega

/-- Modelled from the spec: `twoway.rs` is absent from the snapshot (only its
callers are present).  §6 specifies `Finder::find` as the first match offset
and §4.G reports position 0 for an empty needle, so the forward Two-Way
searcher is modelled by the first window start at which the needle is a
prefix of the remaining haystack. -/
def twowayFind (h n : List Nat) : Option Nat :=
  (List.range (h.length + 1)).find? (fun i => isPrefB n (h.drop i))

/-- Modelled from the spec: `twoway.rs` is absent from the snapshot.  §6
specifies `FinderRev::rfind` as the last match offset and §4.G reports
position `|H|` for an empty needle, so the reverse Two-Way searcher is
modelled by the last window start at which the needle is a prefix of the
remaining haystack. -/
def twowayRfind (h n : List Nat) : Option Nat :=
  (List.range (h.length + 1)).reverse.find? (fun i => isPrefB n (h.drop i))

/-- Modelled from the spec: `rabinkarp::rfind` is absent from the snapshot
(the file only defines the forward scan).  §4.B: the reverse analogue reads
right to left, an empty needle returns `|H|` and a needle longer than the
haystack returns `None`; the rolling hash is a pure filter confirmed by an
exact comparison, so the result is the last matching window start. -/
def rkRfind (h n : List Nat) : Option Nat :=
  if n.isEmpty then some h.length
  else if h.length < n.length then none
  else (List.range (h.length - n.length + 1)).reverse.find?
    (fun i => isPrefB n (h.drop i))

/-- `memmem` (`src/memmem/mod.rs` lines 180-186): haystacks shorter than 64
bytes go to Rabin-Karp, the rest to the Two-Way finder. -/
def memmem (h n : List Nat) : Option Nat :=
  if h.length < 64 then rkFind h n else twowayFind h n

/-- `memrmem` (`src/memmem/mod.rs` lines 217-223): haystacks shorter than 64
bytes go to reverse Rabin-Karp, the rest to the reverse Two-Way finder. -/
def memrmem (h n : List Nat) : Option Nat :=
  if h.length < 64 then rkRfind h n else twowayRfind h n

theorem twowayFind_eq_fpi (h n : List Nat) :
    twowayFind h n = firstPrefIdx n h := by
  unfold twowayFind
  cases hfpi : firstPrefIdx n h with
  | some j =>
    obtain ⟨h1, h2⟩ := firstPrefIdx_some hfpi
    have hj : j ≤ h.length := by
      have := isPrefB_le h1
      rw [List.length_drop] at this
      by_cases hne : n = []
      · subst hne
        rw [firstPrefIdx_empty] at hfpi
        obtain rfl : (0 : Nat) = j := by simpa using hfpi
        omega
      · have hpos : 0 < n.length := List.length_pos.mpr hne
        omega
    rw [List.range_eq_range']
    exact find?_range'_of_first (Nat.zero_le _) (by omega) h1
      (fun i _ hij => h2 i hij)
  | none =>
    rw [List.find?_eq_none]
    intro x _
    simpa using firstPrefIdx_none hfpi x

theorem twowayFind_eq_naive (h n : List Nat) : twowayFind h n = naive_find h n := by
  rw [twowayFind_eq_fpi]
  unfold naive_find
  by_cases hne : n = []
  · subst hne
    rw [if_pos (by simp), firstPrefIdx_empty]
  · rw [if_neg (by simpa [List.isEmpty_iff] using hne)]
    by_cases hshort : h.length < n.length
    · rw [if_pos hshort, firstPrefIdx_of_short hshort]
    · rw [if_neg hshort]
      push_neg at hshort
      rw [firstPrefIdx_eq_range_find h n hne hshort]

theorem twowayRfind_eq_naive (h n : List Nat) :
    twowayRfind h n = naive_rfind h n := by
  unfold twowayRfind naive_rfind
  by_cases hne : n = []
  · subst hne
    rw [if_pos (by simp), List.range_eq_range']
    exact find?_range'_rev_of_last (Nat.zero_le _) (by omega) (isPrefB_nil _)
      (fun j hj1 hj2 => by omega)
  · rw [if_neg (by simpa [List.isEmpty_iff] using hne)]
    have hpos : 0 < n.length := List.length_pos.mpr hne
    by_cases hshort : h.length < n.length
    · rw [if_pos hshort]
      refine List.find?_eq_none.mpr ?_
      intro x _
      have hnp : ¬ isPrefB n (h.drop x) = true := by
        intro hc
        have := isPrefB_le hc
        rw [List.length_drop] at this
        omega
      simpa using hnp
    · rw [if_neg hshort]
      push_neg at hshort
      cases hbig : (List.range (h.length + 1)).reverse.find?
          (fun i => isPrefB n (h.drop i)) with
      | some i =>
        rw [List.range_eq_range'] at hbig
        obtain ⟨h1, h2, h3, h4⟩ := find?_range'_rev_eq_some hbig
        have hi : i ≤ h.length - n.length := by
          have := isPrefB_le h3
          rw [List.length_drop] at this
          omega
        rw [List.range_eq_range']
        exact (find?_range'_rev_of_last (Nat.zero_le _) (by omega) h3
          (fun j hj1 hj2 => h4 j hj1 (by omega))).symm
      | none =>
        rw [List.range_eq_range'] at hbig
        have hall := find?_range'_rev_eq_none hbig
        refine (List.find?_eq_none.mpr ?_).symm
        intro x hx
        rw [List.mem_reverse, List.mem_range] at hx
        have := hall x (Nat.zero_le _) (by omega)
        simpa [isPrefB] using this

theorem rkRfind_eq_naive (h n : List Nat) : rkRfind h n = naive_rfind h n := rfl

/-- C1 theorem: `memmem` (and the Two-Way finder behind `Finder::find`)
agrees with `naive_find` on every haystack and needle. -/
theorem memmem_eq_naive (h n : List Nat) :
    memmem h n = naive_find h n ∧ twowayFind h n = naive_find h n := by
  refine ⟨?_, twowayFind_eq_naive h n⟩
  unfold memmem
  by_cases hlen : h.length < 64
  · rw [if_pos hlen, rkFind_eq_naive]
  · rw [if_neg hlen, twowayFind_eq_naive]

/-- C2 theorem: `memrmem` (and the reverse Two-Way finder behind
`FinderRev::rfind`) agrees with `naive_rfind` on every haystack and
needle. -/
theorem memrmem_eq_naive (h n : List Nat) :
    memrmem h n = naive_rfind h n ∧ twowayRfind h n = naive_rfind h n := by
  refine ⟨?_, twowayRfind_eq_naive h n⟩
  unfold memrmem
  by_cases hlen : h.length < 64
  · rw [if_pos hlen, rkRfind_eq_naive]
  · rw [if_neg hlen, twowayRfind_eq_naive]

/-! ### The iterator layer (`Memmem` / `Memrmem` in `src/memmem/mod.rs`) -/

/-- The sequence of positions yielded by `Memmem::next`: starting from
`pos`, stop once `pos` exceeds the haystack length, otherwise search the
suffix (the finder's `find_with`, modelled by the Two-Way interface), and on
a match at `pos + i` resume from `pos + i + max 1 |N|`.  `fuel` bounds the
number of steps; `memmemIter` supplies enough for the loop to run to
completion. -/
def memmemIterAux (h n : List Nat) : Nat → Nat → List Nat
  | 0, _ => []
  | fuel + 1, pos =>
    if h.length < pos then []
    else
      match twowayFind (h.drop pos) n with
      | none => []
      | some i => (pos + i) :: memmemIterAux h n fuel (pos + i + max 1 n.length)

/-- All positions yielded by `memmem_iter`. -/
def memmemIter (h n : List Nat) : List Nat :=
  memmemIterAux h n (h.length + 2) 0

/-- The sequence of positions yielded by `Memrmem::next`: `pos` is an upper
bound (`None` once exhausted); each step searches the prefix `h[..pos]` in
reverse, yields the match start `i`, and sets the bound to `i` when `i < pos`
or `pos.checked_sub(1)` when `i = pos`. -/
def memrmemIterAux (h n : List Nat) : Nat → Option Nat → List Nat
  | 0, _ => []
  | _ + 1, none => []
  | fuel + 1, some pos =>
    match twowayRfind (h.take pos) n with
    | none => []
    | some i =>
      i :: memrmemIterAux h n fuel
        (if pos = i then (if pos = 0 then none else some (pos - 1)) else some i)

/-- All positions yielded by `memrmem_iter`. -/
def memrmemIter (h n : List Nat) : List Nat :=
  memrmemIterAux h n (h.length + 2) (some h.length)

theorem twowayFind_nil_needle (l : List Nat) : twowayFind l [] = some 0 := by
  rw [twowayFind_eq_fpi, firstPrefIdx_empty]

theorem twowayRfind_nil_needle (l : List Nat) : twowayRfind l [] = some l.length := by
  unfold twowayRfind
  rw [List.range_eq_range']
  exact find?_range'_rev_of_last (Nat.zero_le _) (by omega) (isPrefB_nil _)
    (fun j hj1 hj2 => by omega)

theorem twowayRfind_bound {l n : List Nat} {i : Nat}
    (h : twowayRfind l n = some i) : i + n.length ≤ l.length := by
  unfold twowayRfind at h
  rw [List.range_eq_range'] at h
  obtain ⟨h1, h2, h3, h4⟩ := find?_range'_rev_eq_some h
  have := isPrefB_le h3
  rw [List.length_drop] at this
  omega

theorem memmemIterAux_mem_ge (h n : List Nat) :
    ∀ fuel pos x, x ∈ memmemIterAux h n fuel pos → pos ≤ x := by
  intro fuel
  induction fuel with
  | zero => intro pos x hx; simp [memmemIterAux] at hx
  | succ fuel ih =>
    intro pos x hx
    unfold memmemIterAux at hx
    by_cases hb : h.length < pos
    · rw [if_pos hb] at hx; simp at hx
    · rw [if_neg hb] at hx
      cases hfind : twowayFind (h.drop pos) n with
      | none => rw [hfind] at hx; simp at hx
      | some i =>
        rw [hfind] at hx
        rcases List.mem_cons.mp hx with rfl | hx
        · omega
        · have := ih _ _ hx
          omega

theorem memmemIterAux_chain (h n : List Nat) :
    ∀ fuel pos,
      List.Chain' (fun a b => a + max 1 n.length ≤ b)
        (memmemIterAux h n fuel pos) := by
  intro fuel
  induction fuel with
  | zero => intro pos; simp [memmemIterAux]
  | succ fuel ih =>
    intro pos
    unfold memmemIterAux
    by_cases hb : h.length < pos
    · rw [if_pos hb]; simp
    · rw [if_neg hb]
      cases hfind : twowayFind (h.drop pos) n with
      | none => simp
      | some i =>
        rw [List.chain'_cons']
        refine ⟨fun b hb => ?_, ih _⟩
        have hmem : b ∈ memmemIterAux h n fuel (pos + i + max 1 n.length) :=
          List.mem_of_mem_head? hb
        have := memmemIterAux_mem_ge h n _ _ _ hmem
        omega

theorem memrmemIterAux_mem_le (h n : List Nat) :
    ∀ fuel u x, x ∈ memrmemIterAux h n fuel (some u) →
      x ≤ u ∧ (n ≠ [] → x + n.length ≤ u) := by
  intro fuel
  induction fuel with
  | zero => intro u x hx; simp [memrmemIterAux] at hx
  | succ fuel ih =>
    intro u x hx
    unfold memrmemIterAux at hx
    cases hfind : twowayRfind (h.take u) n with
    | none => rw [hfind] at hx; simp at hx
    | some i =>
      rw [hfind] at hx
      have hbound := twowayRfind_bound hfind
      rw [List.length_take] at hbound
      rcases List.mem_cons.mp hx with rfl | hx
      · constructor
        · omega
        · intro _; omega
      · by_cases hui : u = i
        · subst hui
          rw [if_pos rfl] at hx
          by_cases hu0 : u = 0
          · rw [if_pos hu0] at hx
            cases fuel <;> simp [memrmemIterAux] at hx
          · rw [if_neg hu0] at hx
            have := ih _ _ hx
            constructor
            · omega
            · intro hne; have := (this.2 hne); omega
        · rw [if_neg hui] at hx
          have := ih _ _ hx
          constructor
          · omega
          · intro hne; have := (this.2 hne); omega

theorem memrmemIterAux_chain (h n : List Nat) :
    ∀ fuel u, u ≤ h.length →
      List.Chain' (fun a b => b < a) (memrmemIterAux h n fuel (some u)) := by
  intro fuel
  induction fuel with
  | zero => intro u hu; simp [memrmemIterAux]
  | succ fuel ih =>
    intro u hu
    unfold memrmemIterAux
    cases hfind : twowayRfind (h.take u) n with
    | none => simp
    | some i =>
      have hbound := twowayRfind_bound hfind
      rw [List.length_take] at hbound
      rw [List.chain'_cons']
      by_cases hui : u = i
      · subst hui
        rw [if_pos rfl]
        by_cases hu0 : u = 0
        · rw [if_pos hu0]
          cases fuel <;> simp [memrmemIterAux]
        · rw [if_neg hu0]
          refine ⟨fun b hb => ?_, ih _ (by omega)⟩
          have hmem := List.mem_of_mem_head? hb
          have := memrmemIterAux_mem_le h n _ _ _ hmem
          omega
      · rw [if_neg hui]
        have hne : n ≠ [] := by
          intro hc
          subst hc
          rw [twowayRfind_nil_needle, List.length_take] at hfind
          have : min u h.length = i := by simpa using hfind
          omega
        refine ⟨fun b hb => ?_, ih _ (by omega)⟩
        have hmem := List.mem_of_mem_head? hb
        have hle := memrmemIterAux_mem_le h n _ _ _ hmem
        have := hle.2 hne
        have hpos : 0 < n.length := List.length_pos.mpr hne
        omega

/-- C7 theorem: the forward iterator advances by at least `max 1 |N|` after
every emitted position (hence yields strictly increasing positions), and the
reverse iterator yields strictly decreasing positions. -/
theorem iter_strict_order (h n : List Nat) :
    List.Chain' (fun a b => a + max 1 n.length ≤ b) (memmemIter h n) ∧
    List.Chain' (fun a b => b < a) (memrmemIter h n) :=
  ⟨memmemIterAux_chain h n _ 0, memrmemIterAux_chain h n _ h.length le_rfl⟩

/-! ### Empty-needle behaviour -/

theorem rkFind_nil_needle (h : List Nat) : rkFind h [] = some 0 := by
  rw [rkFind_eq_naive]
  simp [naive_find]

theorem memmemIterAux_nil_needle (h : List Nat) :
    ∀ fuel pos, pos ≤ h.length + 1 → h.length + 2 - pos ≤ fuel →
      memmemIterAux h [] fuel pos = List.range' pos (h.length + 1 - pos) := by
  intro fuel
  induction fuel with
  | zero => intro pos h1 h2; omega
  | succ fuel ih =>
    intro pos h1 h2
    unfold memmemIterAux
    by_cases hb : h.length < pos
    · rw [if_pos hb]
      have : h.length + 1 - pos = 0 := by omega
      rw [this]
      rfl
    · rw [if_neg hb, twowayFind_nil_needle]
      show (pos + 0) :: memmemIterAux h [] fuel (pos + 0 + max 1 ([] : List Nat).length)
          = List.range' pos (h.length + 1 - pos)
      have hstep : pos + 0 + max 1 ([] : List Nat).length = pos + 1 := by simp
      rw [hstep, ih (pos + 1) (by omega) (by omega)]
      have hr : h.length + 1 - pos = (h.length + 1 - (pos + 1)) + 1 := by omega
      rw [hr, List.range'_succ]
      simp

theorem memrmemIterAux_nil_needle (h : List Nat) :
    ∀ fuel u, u ≤ h.length → u + 1 ≤ fuel →
      memrmemIterAux h [] fuel (some u) = (List.range (u + 1)).reverse := by
  intro fuel
  induction fuel with
  | zero => intro u h1 h2; omega
  | succ fuel ih =>
    intro u h1 h2
    unfold memrmemIterAux
    rw [twowayRfind_nil_needle, List.length_take]
    have hmin : min u h.length = u := by omega
    rw [hmin]
    show u :: memrmemIterAux h [] fuel
        (if u = u then (if u = 0 then none else some (u - 1)) else some u)
      = (List.range (u + 1)).reverse
    rw [if_pos rfl]
    by_cases hu0 : u = 0
    · subst hu0
      rw [if_pos rfl]
      cases fuel <;> simp [memrmemIterAux, List.range_succ]
    · rw [if_neg hu0, ih (u - 1) (by omega) (by omega)]
      have hu : u - 1 + 1 = u := by omega
      rw [hu, List.range_succ, List.reverse_append]
      simp

/-- C8 theorem: with an empty needle, `memmem` returns 0, `memrmem` returns
`|H|`, the forward iterator yields exactly `0, 1, ..., |H|`, and the reverse
iterator yields exactly `|H|, ..., 1, 0`. -/
theorem empty_needle_laws (h : List Nat) :
    memmem h [] = some 0 ∧ memrmem h [] = some h.length ∧
    memmemIter h [] = List.range (h.length + 1) ∧
    memrmemIter h [] = (List.range (h.length + 1)).reverse := by
  refine ⟨?_, ?_, ?_, ?_⟩
  · unfold memmem
    by_cases hlen : h.length < 64
    · rw [if_pos hlen, rkFind_nil_needle]
    · rw [if_neg hlen, twowayFind_nil_needle]
  · unfold memrmem
    by_cases hlen : h.length < 64
    · rw [if_pos hlen]; rfl
    · rw [if_neg hlen, twowayRfind_nil_needle]
  · unfold memmemIter
    rw [memmemIterAux_nil_needle h _ 0 (by omega) (by omega)]
    rw [List.range_eq_range']
    simp
  · unfold memrmemIter
    exact memrmemIterAux_nil_needle h _ h.length le_rfl (by omega)

/-! ### Effectiveness-tracker properties -/

theorem isEffective_false_skips (ps : PrefilterState)
    (hf : (isEffective ps).1 = false) : (isEffective ps).2.skips = 0 := by
  unfold isEffective at *
  split_ifs at hf ⊢ with h1 h2 h3
  · exact h1
  · rfl

theorem isEffective_inert (ps : PrefilterState) (h0 : ps.skips = 0) :
    isEffective ps = (false, ps) := by
  unfold isEffective
  rw [if_pos h0]

set_option maxRecDepth 8000 in
/-- C6 counterexample: a fresh state updated 50 times with zero-byte skips
makes `is_effective` return `false`, yet one further `update` makes the next
`is_effective` call return `true` again, because `update` bumps `skips` off
the inert sentinel. -/
theorem effectiveness_not_monotone :
    (isEffective (applyUpdates psFresh (List.replicate 50 0))).1 = false ∧
    (isEffective (psUpdate
        (isEffective (applyUpdates psFresh (List.replicate 50 0))).2 0)).1
      = true := by decide

/-- C6 theorem (amended): once `is_effective` has returned `false`, every
later `is_effective` call with no intervening `update` also returns `false`
(the state keeps the inert sentinel `skips = 0`). -/
theorem effectiveness_false_persists (ps : PrefilterState) (k : Nat)
    (hf : (isEffective ps).1 = false) :
    (isEffective (effStep^[k] (effStep ps))).1 = false := by
  have h0 : (effStep ps).skips = 0 := isEffective_false_skips ps hf
  have hinv : ∀ m, (effStep^[m] (effStep ps)).skips = 0 := by
    intro m
    induction m with
    | zero => simpa using h0
    | succ m ih =>
      rw [Function.iterate_succ_apply']
      show (isEffective (effStep^[m] (effStep ps))).2.skips = 0
      rw [isEffective_inert _ ih]
      exact ih
  rw [isEffective_inert _ (hinv k)]

theorem effectiveness_false_persists_witness :
    (isEffective ⟨51, 0⟩).1 = false ∧
    (isEffective (effStep^[2] (effStep ⟨51, 0⟩))).1 = false :=
  ⟨by decide, effectiveness_false_persists ⟨51, 0⟩ 2 (by decide)⟩

/-! ### Overflow of the effectiveness product (C10) -/

theorem applyUpdates_zeros : ∀ k j : Nat,
    applyUpdates ⟨min (1 + j) u32Max, 0⟩ (List.replicate k 0)
      = ⟨min (1 + (j + k)) u32Max, 0⟩ := by
  intro k
  induction k with
  | zero => intro j; simp [applyUpdates]
  | succ k ih =>
    intro j
    rw [List.replicate_succ]
    unfold applyUpdates at *
    rw [List.foldl_cons]
    have hstep : psUpdate ⟨min (1 + j) u32Max, 0⟩ 0
        = ⟨min (1 + (j + 1)) u32Max, 0⟩ := by
      unfold psUpdate
      simp only [PrefilterState.mk.injEq]
      constructor
      · unfold u32Max; omega
      · simp
    rw [hstep, ih (j + 1)]
    have harith : 1 + (j + 1 + k) = 1 + (j + (k + 1)) := by omega
    rw [harith]

/-- C10 counterexample: after `2^29` update calls on a fresh state the `u32`
product `MIN_SKIP_BYTES * skips()` equals `2^32`, which exceeds `u32::MAX`
and wraps to 0 in the `is_effective` comparison. -/
theorem effectiveness_product_overflows :
    MIN_SKIP_BYTES * psSkips (applyUpdates psFresh (List.replicate (2 ^ 29) 0))
        = 2 ^ 32 ∧
    u32Max < 2 ^ 32 ∧
    MIN_SKIP_BYTES * psSkips (applyUpdates psFresh (List.replicate (2 ^ 29) 0)) % U32M
      ≠ MIN_SKIP_BYTES * psSkips (applyUpdates psFresh (List.replicate (2 ^ 29) 0)) := by
  have hfresh : psFresh = (⟨min (1 + 0) u32Max, 0⟩ : PrefilterState) := by
    unfold psFresh u32Max
    norm_num
  have h := applyUpdates_zeros (2 ^ 29) 0
  rw [hfresh, h]
  unfold psSkips MIN_SKIP_BYTES u32Max U32M
  norm_num

theorem skips_le_applyUpdates (l : List Nat) :
    ∀ ps : PrefilterState, (applyUpdates ps l).skips ≤ ps.skips + l.length := by
  induction l with
  | nil => intro ps; simp [applyUpdates]
  | cons a l ih =>
    intro ps
    unfold applyUpdates at *
    rw [List.foldl_cons]
    have h1 := ih (psUpdate ps a)
    have h2 : (psUpdate ps a).skips ≤ ps.skips + 1 := by
      unfold psUpdate
      simp only
      omega
    simp only [List.length_cons]
    omega

/-- C10 theorem (amended): for states reachable from a fresh state by at most
`2^29 - 1` update calls, the product `MIN_SKIP_BYTES * skips()` fits in a
`u32` and the effectiveness comparison is computed on the exact value. -/
theorem effectiveness_product_exact (l : List Nat) (hl : l.length ≤ 2 ^ 29 - 1) :
    MIN_SKIP_BYTES * psSkips (applyUpdates psFresh l) ≤ u32Max ∧
    MIN_SKIP_BYTES * psSkips (applyUpdates psFresh l) % U32M
      = MIN_SKIP_BYTES * psSkips (applyUpdates psFresh l) := by
  have h := skips_le_applyUpdates l psFresh
  have h2 : psFresh.skips = 1 := rfl
  have hs : psSkips (applyUpdates psFresh l) ≤ l.length := by
    unfold psSkips
    omega
  unfold MIN_SKIP_BYTES u32Max U32M
  constructor
  · omega
  · apply Nat.mod_eq_of_lt
    omega

theorem effectiveness_product_exact_witness :
    ([3, 4] : List Nat).length ≤ 2 ^ 29 - 1 ∧
    MIN_SKIP_BYTES * psSkips (applyUpdates psFresh [3, 4]) ≤ u32Max :=
  ⟨by decide, (effectiveness_product_exact [3, 4] (by decide)).1⟩

/-! ### Needle analysis (`NeedleInfo` in `src/memmem/prefilter/mod.rs`)

The `BYTE_FREQUENCIES` table (`byte_frequencies.rs`) is absent from the
snapshot, so the frequency rank is a parameter `rank`; everything below is
otherwise a direct translation of `NeedleInfo::forward` / `reverse`. -/

/-- One step of the rare-byte scan over `(i, b)` pairs, acting on the state
`(rare1, rare1i, rare2, rare2i)`: a strictly rarer byte demotes `rare1` to
`rare2`; otherwise a byte distinct from `rare1` that is rarer than `rare2`
replaces `rare2`. -/
def rareStep (rank : Nat → Nat) (st : Nat × Nat × Nat × Nat)
    (ib : Nat × Nat) : Nat × Nat × Nat × Nat :=
  if rank ib.2 < rank st.1 then (ib.2, ib.1, st.1, st.2.1)
  else if ib.2 ≠ st.1 ∧ rank ib.2 < rank st.2.2.1 then
    (st.1, st.2.1, ib.2, ib.1)
  else st

/-- `NeedleInfo::forward` restricted to the `(rare1i, rare2i)` pair: needles
of length ≤ 1 or > 255 get `(0, 0)`; otherwise initialize from the bytes at
`start` and `start + 1` (swapped so `rare1` is rarer) and fold the scan over
the remaining indexed bytes.  `skip_first_byte` starts the scan at 1 for
needles of length ≥ 3.  (`BYTE_FREQUENCIES` is absent from the snapshot;
`rank` abstracts it.) -/
def niForwardPair (rank : Nat → Nat) (needle : List Nat)
    (skipFirstByte : Bool) : Nat × Nat :=
  if needle.length ≤ 1 ∨ 255 < needle.length then (0, 0)
  else
    let start := if skipFirstByte ∧ 3 ≤ needle.length then 1 else 0
    let b0 := needle.getD start 0
    let b1 := needle.getD (start + 1) 0
    let init := if rank b1 < rank b0 then (b1, start + 1, b0, start)
      else (b0, start, b1, start + 1)
    let fin := (needle.enum.drop (start + 2)).foldl (rareStep rank) init
    (fin.2.1, fin.2.2.2)

/-- `NeedleInfo::reverse` restricted to the `(rare1i, rare2i)` pair: offsets
count from the end of the needle (0 is the last byte); the scan runs over the
reversed needle. -/
def niReversePair (rank : Nat → Nat) (needle : List Nat)
    (skipFirstByte : Bool) : Nat × Nat :=
  if needle.length ≤ 1 ∨ 255 < needle.length then (0, 0)
  else
    let start := if skipFirstByte ∧ 3 ≤ needle.length then 1 else 0
    let b0 := needle.getD (needle.length - start - 1) 0
    let b1 := needle.getD (needle.length - (start + 1) - 1) 0
    let init := if rank b1 < rank b0 then (b1, start + 1, b0, start)
      else (b0, start, b1, start + 1)
    let fin := (needle.reverse.enum.drop (start + 2)).foldl (rareStep rank) init
    (fin.2.1, fin.2.2.2)

/-- C4 theorem: for the needle `[97, 97]` (i.e. `"aa"`), `NeedleInfo::forward`
produces `rare2i = 1` for every rank table, although the first occurrence of
byte 97 (the value at offset `rare2i`) is at index 0 — the offsets do not
always point to the first occurrence of their byte values, and no post-pass
remaps them. -/
theorem rare_offsets_not_first_occurrence :
    ∀ rank : Nat → Nat,
      niForwardPair rank [97, 97] false = (0, 1) ∧
      List.getD [97, 97] 1 0 = 97 ∧
      memchrList 97 [97, 97] = some 0 := by
  intro rank
  refine ⟨?_, by decide, by decide⟩
  unfold niForwardPair
  norm_num
  exact ⟨rfl, rfl⟩

/-! ### The `Freqy` prefilter constructors (`src/memmem/prefilter/mod.rs`) -/

/-- `MAX_FALLBACK_RANK`. -/
def MAX_FALLBACK_RANK : Nat := 250

/-- The prefilter function selected by `Freqy` (a function pointer in the
source). -/
inductive PrefnTag where
  | fallbackFwd
  | sseFwd
  | avxFwd
  | fallbackRev
deriving Repr, DecidableEq

/-- The `Freqy` struct: the needle info (rare offsets and needle hash), the
selected prefilter function and the inert flag. -/
structure FreqyM where
  rare1i : Nat
  rare2i : Nat
  nhash : NeedleHash
  prefn : PrefnTag
  inert : Bool
deriving Repr, DecidableEq

/-- `Freqy::forward` (the SIMD-enabled version, lines 192-225): a `None`
prefilter config or a needle of length ≤ 1 yields an inert `Freqy` with
default offsets; otherwise the needle is analyzed (skipping the first byte
when SSE or AVX is available) and the AVX, SSE or fallback prefilter is
selected, the fallback rendered inert when the rarest byte ranks above
`MAX_FALLBACK_RANK`.  CPU features are the `isSse`/`isAvx` parameters. -/
def freqyForward (rank : Nat → Nat) (configNone isSse isAvx : Bool)
    (needle : List Nat) : FreqyM :=
  if configNone || needle.length ≤ 1 then
    { rare1i := 0, rare2i := 0, nhash := NeedleHash.new needle,
      prefn := PrefnTag.fallbackFwd, inert := true }
  else
    let pr := niForwardPair rank needle (isSse || isAvx)
    if isAvx then
      { rare1i := pr.1, rare2i := pr.2, nhash := NeedleHash.new needle,
        prefn := PrefnTag.avxFwd, inert := false }
    else if isSse then
      { rare1i := pr.1, rare2i := pr.2, nhash := NeedleHash.new needle,
        prefn := PrefnTag.sseFwd, inert := false }
    else
      { rare1i := pr.1, rare2i := pr.2, nhash := NeedleHash.new needle,
        prefn := PrefnTag.fallbackFwd,
        inert := decide (MAX_FALLBACK_RANK < rank (needle.getD pr.1 0)) }

/-- `Freqy::reverse` (lines 229-245): the local `inert` flag is set for a
`None` config, then unconditionally recomputed from the rank of the rare
byte, and finally the struct is built with the literal `inert: false`,
discarding the computed flag (`_inert1` mirrors the dead local). -/
def freqyReverse (rank : Nat → Nat) (configNone isAvx : Bool)
    (needle : List Nat) : FreqyM :=
  let inert0 : Bool := configNone
  let nin : Nat × Nat :=
    if configNone then (0, 0) else niReversePair rank needle isAvx
  let _inert1 : Bool :=
    if nin.1 < needle.length then
      decide (MAX_FALLBACK_RANK < rank (needle.getD (needle.length - nin.1 - 1) 0))
    else inert0
  { rare1i := nin.1, rare2i := nin.2, nhash := NeedleHash.new needle,
    prefn := PrefnTag.fallbackRev, inert := false }

/-- `Freqy::state`: an inert `Freqy` produces the inert `PrefilterState`,
otherwise a fresh one. -/
def freqyState (f : FreqyM) : PrefilterState :=
  if f.inert then psInert else psFresh

/-- C9 theorem: building a reverse finder with the prefilter forced to `None`
does not produce an inert `Freqy` — `Freqy::reverse` hardcodes
`inert: false`, so the search starts from a fresh, effective prefilter state
instead of an inert one (for every rank table); the forward constructor, by
contrast, honours the `None` config. -/
theorem prefilter_none_reverse_not_inert :
    ∀ rank : Nat → Nat,
      (freqyReverse rank true false [97, 98]).inert = false ∧
      freqyState (freqyReverse rank true false [97, 98]) = psFresh ∧
      (isEffective (freqyState (freqyReverse rank true false [97, 98]))).1 = true ∧
      (freqyForward rank true false false [97, 98]).inert = true ∧
      (isEffective (freqyState (freqyForward rank true false false [97, 98]))).1 = false := by
  intro rank
  exact ⟨rfl, rfl, rfl, rfl, rfl⟩

/-! ### The generic SIMD confirmer (`src/memmem/genericsimd.rs`) -/

/-- Little-endian packing of the needle bytes into the `u64` that
`Forward::new` fills with `copy_to_nonoverlapping` (x86_64 is
little-endian). -/
def le64 : List Nat → Nat
  | [] => 0
  | b :: rest => b + 256 * le64 rest

/-- `genericsimd::Forward`: the packed needle, its length mask and the two
ordered rare offsets. -/
structure GsForward where
  needle : Nat
  mask : Nat
  rare1i : Nat
  rare2i : Nat
deriving Repr, DecidableEq

/-- `genericsimd::Forward::new` (lines 38-60): order the rare offsets
(`as_rare_ordered_u8`), then give up when the needle is shorter than 2 or
longer than 8 bytes or the offsets coincide; otherwise pack the needle into a
`u64` with the mask `(1 << (8*len)) - 1` (all ones for length 8). -/
def gsForwardNew (r1i r2i : Nat) (needle : List Nat) : Option GsForward :=
  let p := if r1i ≤ r2i then (r1i, r2i) else (r2i, r1i)
  if needle.length < 2 ∨ 8 < needle.length ∨ p.1 = p.2 then none
  else
    some { needle := le64 needle
           mask := if needle.length = 8 then 2 ^ 64 - 1
             else 2 ^ (8 * needle.length) - 1
           rare1i := p.1
           rare2i := p.2 }

/-- `Forward::min_haystack_len` for a vector of `width` bytes. -/
def gsMinHaystackLen (f : GsForward) (width : Nat) : Nat :=
  f.rare2i + width

/-- C5 theorem: `genericsimd::Forward::new` returns `None` for a 9-byte
needle with distinct rare offsets (it rejects every length above 8), while an
8-byte needle is accepted — contradicting the claimed constructibility for
all needle lengths in `[2, 16]`. -/
theorem genericsimd_new_rejects_length_nine :
    gsForwardNew 0 1 [0, 1, 2, 3, 4, 5, 6, 7, 8] = none ∧
    (gsForwardNew 0 1 [0, 1, 2, 3, 4, 5, 6, 7]).isSome = true := by decide

/-! ### Prefilter routines: scalar fallback, SSE2 and AVX2
(`src/memmem/prefilter/fallback.rs`, `x86/sse.rs`, `x86/avx.rs`) -/

/-- The loop of `fallback::find`: while the state is effective, jump to the
next occurrence of `rare1` (via `memchr`), record the skip, and either
realign (`i < rare1i`), reject on a `rare2` mismatch, or report the aligned
candidate `i - rare1i`.  When the state goes inert the current aligned
position is returned as an allowed false positive
(`i.saturating_sub(rare1i)`), and when `rare1` has no further occurrence the
result is `None`. -/
def fallbackFindLoop (r1i r2i b1 b2 : Nat) (h : List Nat)
    (ps : PrefilterState) (i : Nat) : PrefilterState × Option Nat :=
  if (isEffective ps).1 then
    match hm : memchrList b1 (h.drop i) with
    | none => ((isEffective ps).2, none)
    | some found =>
      if i + found < r1i then
        fallbackFindLoop r1i r2i b1 b2 h
          (psUpdate (isEffective ps).2 found) (i + found + 1)
      else if h.get? (i + found - r1i + r2i) ≠ some b2 then
        fallbackFindLoop r1i r2i b1 b2 h
          (psUpdate (isEffective ps).2 found) (i + found + 1)
      else (psUpdate (isEffective ps).2 found, some (i + found - r1i))
  else ((isEffective ps).2, some (i - r1i))
termination_by h.length + 1 - i
decreasing_by
  all_goals
    have hb := (memchrList_eq_some hm).1
    rw [List.length_drop] at hb
    omega

/-- `fallback::find`: the rare bytes are the needle bytes at the (unordered)
offsets `as_rare_usize`, and scanning starts at `i = 0`. -/
def fallbackFind (ps : PrefilterState) (r1i r2i : Nat) (h n : List Nat) :
    PrefilterState × Option Nat :=
  fallbackFindLoop r1i r2i (n.getD r1i 0) (n.getD r2i 0) h ps 0

/-- `find_in_chunk2` of the vector prefilters: unaligned loads of `width`
bytes at `base + rare1i` and `base + rare2i`, byte-wise `cmpeq` against the
splatted rare bytes, `and`, `movemask`, `trailing_zeros` — i.e. the least
in-chunk offset `j < width` at which both rare bytes match. -/
def chunkCand (h : List Nat) (b1 b2 r1 r2 base width : Nat) : Option Nat :=
  (List.range width).find? (fun j =>
    (h.getD (base + r1 + j) 0 == b1) && (h.getD (base + r2 + j) 0 == b2))

/-- The main loop shared by `sse::Find::run` and `avx::Find::run` (width
`w + 1` bytes): scan chunks while `ptr <= max_ptr`, advancing a full vector
at a time; a found candidate updates the state with the skipped distance and
is returned.  The trailing partial chunk is re-anchored at `max_ptr`; if
nothing is found the state is updated with the full haystack length and
`None` is returned. -/
def simdLoop (h : List Nat) (b1 b2 r1 r2 maxb w : Nat)
    (ps : PrefilterState) (base : Nat) : PrefilterState × Option Nat :=
  if base ≤ maxb then
    match chunkCand h b1 b2 r1 r2 base (w + 1) with
    | some j => (psUpdate ps (base + j), some (base + j))
    | none => simdLoop h b1 b2 r1 r2 maxb w ps (base + (w + 1))
  else if base < h.length then
    match chunkCand h b1 b2 r1 r2 maxb (w + 1) with
    | some j => (psUpdate ps (maxb + j), some (maxb + j))
    | none => (psUpdate ps h.length, none)
  else (psUpdate ps h.length, none)
termination_by maxb + 1 - base

/-- `sse::find` (`x86/sse.rs`): the rare offsets are ordered
(`as_rare_ordered_usize`); haystacks shorter than `min_haystack_len =
rare2i + 16` fall back to a plain `memchr` for the byte at the first ordered
offset, mapped through `saturating_sub`; otherwise the 16-byte-wide vector
loop runs with `max_ptr = len - min_haystack_len`. -/
def sseFind (ps : PrefilterState) (r1i r2i : Nat) (h n : List Nat) :
    PrefilterState × Option Nat :=
  if h.length < max r1i r2i + 16 then
    (ps, (memchrList (n.getD (min r1i r2i) 0) h).map (fun i => i - min r1i r2i))
  else
    simdLoop h (n.getD (min r1i r2i) 0) (n.getD (max r1i r2i) 0)
      (min r1i r2i) (max r1i r2i) (h.length - (max r1i r2i + 16)) 15 ps 0

/-- `avx::find` (`x86/avx.rs`): haystacks shorter than `rare2i + 32` are
delegated to the SSE2 finder; otherwise the 32-byte-wide vector loop runs
with `max_ptr = len - (rare2i + 32)`. -/
def avxFind (ps : PrefilterState) (r1i r2i : Nat) (h n : List Nat) :
    PrefilterState × Option Nat :=
  if h.length < max r1i r2i + 32 then sseFind ps r1i r2i h n
  else
    simdLoop h (n.getD (min r1i r2i) 0) (n.getD (max r1i r2i) 0)
      (min r1i r2i) (max r1i r2i) (h.length - (max r1i r2i + 32)) 31 ps 0

/-! ### The prefilters never skip past a real occurrence -/

theorem getD_drop_add (l : List Nat) (i t : Nat) :
    (l.drop i).getD t 0 = l.getD (i + t) 0 := by
  rw [List.getD_eq_getElem?_getD, List.getD_eq_getElem?_getD, List.getElem?_drop]

theorem occAt_getD {h n : List Nat} {p : Nat} (hocc : occAt h n p) {r : Nat}
    (hr : r < n.length) : h.getD (p + r) 0 = n.getD r 0 := by
  obtain ⟨hl, he⟩ := hocc
  conv_rhs => rw [← he]
  rw [List.getD_eq_getElem?_getD (l := (h.drop p).take n.length),
    List.getElem?_take_of_lt hr, ← List.getD_eq_getElem?_getD, getD_drop_add]

theorem get?_eq_some_getD {l : List Nat} {i : Nat} (hi : i < l.length) :
    l.get? i = some (l.getD i 0) := by
  rw [List.get?_eq_getElem?, List.getElem?_eq_getElem hi,
    List.getD_eq_getElem?_getD, List.getElem?_eq_getElem hi]
  rfl

theorem chunkCand_some {h : List Nat} {b1 b2 r1 r2 base width j : Nat}
    (hc : chunkCand h b1 b2 r1 r2 base width = some j) :
    j < width ∧ ∀ t, t < j →
      ¬(h.getD (base + r1 + t) 0 = b1 ∧ h.getD (base + r2 + t) 0 = b2) := by
  unfold chunkCand at hc
  rw [List.range_eq_range'] at hc
  obtain ⟨h1, h2, h3, h4⟩ := find?_range'_eq_some hc
  refine ⟨by omega, fun t ht hcontra => ?_⟩
  have h5 := h4 t (Nat.zero_le _) ht
  rw [hcontra.1, hcontra.2] at h5
  simp at h5

theorem chunkCand_le {h : List Nat} {b1 b2 r1 r2 base width j t : Nat}
    (hc : chunkCand h b1 b2 r1 r2 base width = some j)
    (_ht : t < width) (e1 : h.getD (base + r1 + t) 0 = b1)
    (e2 : h.getD (base + r2 + t) 0 = b2) : j ≤ t := by
  by_contra hlt
  exact (chunkCand_some hc).2 t (by omega) ⟨e1, e2⟩

theorem chunkCand_none {h : List Nat} {b1 b2 r1 r2 base width t : Nat}
    (hc : chunkCand h b1 b2 r1 r2 base width = none) (ht : t < width)
    (e1 : h.getD (base + r1 + t) 0 = b1) (e2 : h.getD (base + r2 + t) 0 = b2) :
    False := by
  unfold chunkCand at hc
  rw [List.range_eq_range'] at hc
  have h5 := find?_range'_eq_none hc t (Nat.zero_le _) (by omega)
  rw [e1, e2] at h5
  simp at h5

/-- If the two rare bytes of a real occurrence lie inside the scanned region,
the SIMD loop reports a candidate at or before the occurrence. -/
theorem simdLoop_no_miss (h : List Nat) (b1 b2 r1 r2 maxb w p : Nat)
    (e1 : h.getD (p + r1) 0 = b1) (e2 : h.getD (p + r2) 0 = b2)
    (hpw : p ≤ maxb + w) (hph : p < h.length) :
    ∀ k base ps, maxb + 1 - base ≤ k → base ≤ p →
      ∃ q, (simdLoop h b1 b2 r1 r2 maxb w ps base).2 = some q ∧ q ≤ p := by
  intro k
  induction k with
  | zero =>
    intro base ps hk hbp
    unfold simdLoop
    rw [if_neg (by omega)]
    have hbl : base < h.length := by omega
    rw [if_pos hbl]
    cases hc : chunkCand h b1 b2 r1 r2 maxb (w + 1) with
    | some j =>
      have hj := chunkCand_le hc (show p - maxb < w + 1 by omega)
        (by rw [show maxb + r1 + (p - maxb) = p + r1 by omega]; exact e1)
        (by rw [show maxb + r2 + (p - maxb) = p + r2 by omega]; exact e2)
      exact ⟨maxb + j, rfl, by omega⟩
    | none =>
      exact (chunkCand_none hc (show p - maxb < w + 1 by omega)
        (by rw [show maxb + r1 + (p - maxb) = p + r1 by omega]; exact e1)
        (by rw [show maxb + r2 + (p - maxb) = p + r2 by omega]; exact e2)).elim
  | succ k ih =>
    intro base ps hk hbp
    unfold simdLoop
    by_cases hble : base ≤ maxb
    · rw [if_pos hble]
      cases hc : chunkCand h b1 b2 r1 r2 base (w + 1) with
      | some j =>
        refine ⟨base + j, rfl, ?_⟩
        by_cases hin : p < base + (w + 1)
        · have := chunkCand_le hc (show p - base < w + 1 by omega)
            (by rw [show base + r1 + (p - base) = p + r1 by omega]; exact e1)
            (by rw [show base + r2 + (p - base) = p + r2 by omega]; exact e2)
          omega
        · have := (chunkCand_some hc).1
          omega
      | none =>
        have hout : ¬ p < base + (w + 1) := by
          intro hin
          exact chunkCand_none hc (show p - base < w + 1 by omega)
            (by rw [show base + r1 + (p - base) = p + r1 by omega]; exact e1)
            (by rw [show base + r2 + (p - base) = p + r2 by omega]; exact e2)
        exact ih (base + (w + 1)) ps (by omega) (by omega)
    · rw [if_neg hble]
      have hbl : base < h.length := by omega
      rw [if_pos hbl]
      cases hc : chunkCand h b1 b2 r1 r2 maxb (w + 1) with
      | some j =>
        have hj := chunkCand_le hc (show p - maxb < w + 1 by omega)
          (by rw [show maxb + r1 + (p - maxb) = p + r1 by omega]; exact e1)
          (by rw [show maxb + r2 + (p - maxb) = p + r2 by omega]; exact e2)
        exact ⟨maxb + j, rfl, by omega⟩
      | none =>
        exact (chunkCand_none hc (show p - maxb < w + 1 by omega)
          (by rw [show maxb + r1 + (p - maxb) = p + r1 by omega]; exact e1)
          (by rw [show maxb + r2 + (p - maxb) = p + r2 by omega]; exact e2)).elim

theorem fallbackFindLoop_no_miss (r1i r2i b1 b2 : Nat) (h : List Nat) (p : Nat)
    (e1 : h.getD (p + r1i) 0 = b1) (e2 : h.getD (p + r2i) 0 = b2)
    (hl1 : p + r1i < h.length) (hl2 : p + r2i < h.length) :
    ∀ k i ps, h.length + 1 - i ≤ k → i ≤ p + r1i →
      ∃ q, (fallbackFindLoop r1i r2i b1 b2 h ps i).2 = some q ∧ q ≤ p := by
  intro k
  induction k with
  | zero => intro i ps hk hip; omega
  | succ k ih =>
    intro i ps hk hip
    unfold fallbackFindLoop
    by_cases heff : (isEffective ps).1 = true
    · rw [if_pos heff]
      have hd : (h.drop i).getD (p + r1i - i) 0 = b1 := by
        rw [getD_drop_add, show i + (p + r1i - i) = p + r1i by omega]
        exact e1
      cases hmc : memchrList b1 (h.drop i) with
      | none =>
        exact (memchrList_ne_none
          (by rw [List.length_drop]; omega) hd hmc).elim
      | some found =>
        have hfle := memchrList_le hmc hd
        show ∃ q,
          (if i + found < r1i then
              fallbackFindLoop r1i r2i b1 b2 h
                (psUpdate (isEffective ps).2 found) (i + found + 1)
            else if h.get? (i + found - r1i + r2i) ≠ some b2 then
              fallbackFindLoop r1i r2i b1 b2 h
                (psUpdate (isEffective ps).2 found) (i + found + 1)
            else (psUpdate (isEffective ps).2 found,
              some (i + found - r1i))).2 = some q ∧ q ≤ p
        by_cases hif1 : i + found < r1i
        · rw [if_pos hif1]
          exact ih (i + found + 1) _ (by omega) (by omega)
        · rw [if_neg hif1]
          by_cases hif2 : h.get? (i + found - r1i + r2i) ≠ some b2
          · rw [if_pos hif2]
            have hne : i + found ≠ p + r1i := by
              intro hc
              apply hif2
              rw [hc, show p + r1i - r1i + r2i = p + r2i by omega,
                get?_eq_some_getD hl2, e2]
            exact ih (i + found + 1) _ (by omega) (by omega)
          · rw [if_neg hif2]
            exact ⟨i + found - r1i, rfl, by omega⟩
    · rw [if_neg heff]
      exact ⟨i - r1i, rfl, by omega⟩

theorem fallbackFind_no_miss (ps : PrefilterState) (r1i r2i : Nat)
    (h n : List Nat) (p : Nat) (h1 : r1i < n.length) (h2 : r2i < n.length)
    (hocc : occAt h n p) :
    ∃ q, (fallbackFind ps r1i r2i h n).2 = some q ∧ q ≤ p := by
  unfold fallbackFind
  have hlen := hocc.1
  exact fallbackFindLoop_no_miss r1i r2i _ _ h p (occAt_getD hocc h1)
    (occAt_getD hocc h2) (by omega) (by omega) (h.length + 1) 0 ps
    (by omega) (by omega)

theorem sseFind_no_miss (ps : PrefilterState) (r1i r2i : Nat)
    (h n : List Nat) (p : Nat) (h1 : r1i < n.length) (h2 : r2i < n.length)
    (hocc : occAt h n p) :
    ∃ q, (sseFind ps r1i r2i h n).2 = some q ∧ q ≤ p := by
  unfold sseFind
  have hmin : min r1i r2i < n.length := by omega
  have hmax : max r1i r2i < n.length := by omega
  have e1 := occAt_getD hocc hmin
  have e2 := occAt_getD hocc hmax
  have hlen := hocc.1
  by_cases hs : h.length < max r1i r2i + 16
  · rw [if_pos hs]
    cases hmc : memchrList (n.getD (min r1i r2i) 0) h with
    | none =>
      exact (memchrList_ne_none (show p + min r1i r2i < h.length by omega)
        e1 hmc).elim
    | some f =>
      have hf := memchrList_le hmc e1
      exact ⟨f - min r1i r2i, rfl, by omega⟩
  · rw [if_neg hs]
    push_neg at hs
    exact simdLoop_no_miss h _ _ _ _ _ _ p e1 e2 (by omega) (by omega)
      (h.length - (max r1i r2i + 16) + 1) 0 ps (by omega) (by omega)

theorem avxFind_no_miss (ps : PrefilterState) (r1i r2i : Nat)
    (h n : List Nat) (p : Nat) (h1 : r1i < n.length) (h2 : r2i < n.length)
    (hocc : occAt h n p) :
    ∃ q, (avxFind ps r1i r2i h n).2 = some q ∧ q ≤ p := by
  unfold avxFind
  have hmin : min r1i r2i < n.length := by omega
  have hmax : max r1i r2i < n.length := by omega
  have e1 := occAt_getD hocc hmin
  have e2 := occAt_getD hocc hmax
  have hlen := hocc.1
  by_cases hs : h.length < max r1i r2i + 32
  · rw [if_pos hs]
    exact sseFind_no_miss ps r1i r2i h n p h1 h2 hocc
  · rw [if_neg hs]
    push_neg at hs
    exact simdLoop_no_miss h _ _ _ _ _ _ p e1 e2 (by omega) (by omega)
      (h.length - (max r1i r2i + 32) + 1) 0 ps (by omega) (by omega)

/-- C3 theorem: whenever the needle occurs at position `p` in the haystack
(and the rare offsets are in range, as needle analysis guarantees), each of
the three prefilter variants — the scalar fallback, the SSE2 finder and the
AVX2 finder — returns `Some q` with `q ≤ p` from any prefilter state
(in particular from a fresh one): candidates may be false positives but a
real occurrence is never skipped. -/
theorem prefilters_never_miss (ps : PrefilterState) (h n : List Nat)
    (r1i r2i p : Nat) (h1 : r1i < n.length) (h2 : r2i < n.length)
    (hocc : occAt h n p) :
    (∃ q, (fallbackFind ps r1i r2i h n).2 = some q ∧ q ≤ p) ∧
    (∃ q, (sseFind ps r1i r2i h n).2 = some q ∧ q ≤ p) ∧
    (∃ q, (avxFind ps r1i r2i h n).2 = some q ∧ q ≤ p) :=
  ⟨fallbackFind_no_miss ps r1i r2i h n p h1 h2 hocc,
    sseFind_no_miss ps r1i r2i h n p h1 h2 hocc,
    avxFind_no_miss ps r1i r2i h n p h1 h2 hocc⟩

theorem prefilters_never_miss_witness :
    (0 < ([5, 7] : List Nat).length ∧ 1 < ([5, 7] : List Nat).length ∧
      occAt [9, 9, 9, 9, 5, 7, 9, 9, 9, 9, 9, 9, 9, 9, 9, 9, 9, 9, 9, 9]
        [5, 7] 4) ∧
    ((∃ q, (fallbackFind psFresh 0 1
        [9, 9, 9, 9, 5, 7, 9, 9, 9, 9, 9, 9, 9, 9, 9, 9, 9, 9, 9, 9]
        [5, 7]).2 = some q ∧ q ≤ 4) ∧
      (∃ q, (sseFind psFresh 0 1
        [9, 9, 9, 9, 5, 7, 9, 9, 9, 9, 9, 9, 9, 9, 9, 9, 9, 9, 9, 9]
        [5, 7]).2 = some q ∧ q ≤ 4) ∧
      (∃ q, (avxFind psFresh 0 1
        [9, 9, 9, 9, 5, 7, 9, 9, 9, 9, 9, 9, 9, 9, 9, 9, 9, 9, 9, 9]
        [5, 7]).2 = some q ∧ q ≤ 4)) :=
  ⟨⟨by decide, by decide, by decide⟩,
    prefilters_never_miss psFresh
      [9, 9, 9, 9, 5, 7, 9, 9, 9, 9, 9, 9, 9, 9, 9, 9, 9, 9, 9, 9]
      [5, 7] 0 1 4 (by decide) (by decide) (by decide)⟩
